import Mathlib

/-!
# Verification of the slack-polls group-reconciliation core

Shallow embedding of the Go program (`main.go`, and its socket-mode variant)
into Lean 4.  Go strings are modelled as `List Char`; the pure domain
functions `appendUser`, `updateGroups`, `contains`, `remove` are translated
directly from the source.  `strings.Split`/`strings.Join` on the fixed
two-character separator `", "` are embedded as `goSplit`/`goJoin`.
Operations that can panic in Go (out-of-range slice indexing) are embedded
in `Option`, returning `none` exactly where the Go code would panic.
-/

/-- A Go string, modelled as its list of characters. -/
abbrev GoStr := List Char

/-- The empty-sentinel display string `":"` (`"always have some text"`). -/
def sentinel : GoStr := [':']

/-- Embedding of `strings.Split(s, ", ")`: split `s` around each
(leftmost-first) occurrence of the two-character separator `", "`.
`strings.Split` of the empty string yields one empty token. -/
def goSplit : GoStr → List GoStr
  | [] => [[]]
  | [c1] => [[c1]]
  | c1 :: c2 :: rest2 =>
    if c1 = ',' ∧ c2 = ' ' then [] :: goSplit rest2
    else
      match goSplit (c2 :: rest2) with
      | [] => [[c1]]
      | t :: ts => (c1 :: t) :: ts

/-- Predicate `hasSep s = true` holds iff the separator `", "` occurs as a contiguous
substring of `s`. -/
def hasSep : GoStr → Bool
  | [] => false
  | c1 :: rest =>
    match rest with
    | [] => false
    | c2 :: _ => if c1 = ',' ∧ c2 = ' ' then true else hasSep rest

/-- Embedding of `strings.Join(l, ", ")`. -/
def goJoin : List GoStr → GoStr
  | [] => []
  | [t] => t
  | t :: ts => t ++ ',' :: ' ' :: goJoin ts

/-- Translation of `contains` from `main.go`: linear scan for an element
equal to `text`. -/
def contains (text : GoStr) : List GoStr → Bool
  | [] => false
  | s :: rest => if text = s then true else contains text rest

/-- Index of the first element of `arr` equal to `text`, if any.  Helper
for `remove` (in the Go code the loop variable `index` keeps its zero
value `0` when no element matches). -/
def firstIdx (text : GoStr) : List GoStr → Option Nat
  | [] => none
  | s :: rest => if text = s then some 0 else (firstIdx text rest).map (· + 1)

/-- Translation of `remove` from `main.go`: delete the element at the first
index whose value equals `text` (the Go `index` variable defaults to `0`
when nothing matches, so the head is deleted in that case). -/
def remove (text : GoStr) (arr : List GoStr) : List GoStr :=
  let index := (firstIdx text arr).getD 0
  arr.take index ++ arr.drop (index + 1)

/-- Translation of `appendUser` from `main.go`: appending onto the
empty-sentinel replaces it outright, otherwise join with `", "`. -/
def appendUser (text userID : GoStr) : GoStr :=
  if text = sentinel then userID else text ++ ',' :: ' ' :: userID

/-- Body of the re-serialization loop of `updateGroups`:
`groups[i] = strings.Join(parsedGroups[i], ", "); if groups[i] == "" { groups[i] = ":" }`. -/
def rejoinOne (l : List GoStr) : GoStr :=
  if goJoin l = [] then sentinel else goJoin l

/-- The scan loop of `updateGroups`: `userIndex` starts at `-1` and is set
to `i` at every group whose parsed token list contains `user` (no `break`,
so the last matching group wins).  `i` is the position of the head of the
remaining list, `acc` the current value of `userIndex`. -/
def scanFrom (user : GoStr) : Nat → Int → List GoStr → Int
  | _, acc, [] => acc
  | i, acc, g :: gs =>
      scanFrom user (i + 1) (if contains user (goSplit g) then (i : Int) else acc) gs

/-- Translation of `updateGroups` from `main.go`.  `none` models a Go
panic: writing `parsedGroups[i]` for `i ≥ 4` (more than four groups),
or indexing `groups[index]` out of range, or writing `groups[i]` for
`i < 4` when fewer than four groups were supplied. -/
def updateGroups (user : GoStr) (index : Int) (groups : List GoStr) : Option (List GoStr) :=
  if groups.length > 4 then none
  else
    let userIndex := scanFrom user 0 (-1) groups
    if userIndex = -1 then
      -- If the user isn't anywhere, add them to the index
      if 0 ≤ index ∧ index.toNat < groups.length then
        some (groups.set index.toNat (appendUser (groups.getD index.toNat []) user))
      else none
    else
      if groups.length = 4 then
        -- if the user is in the same group, remove them from the group
        let c := userIndex.toNat
        let parsed := groups.map goSplit
        let parsed2 := parsed.set c (remove user (parsed.getD c []))
        let groups2 := parsed2.map rejoinOne
        -- if the user is in a different group, remove them from that
        -- group and add them to the new one
        if index = userIndex then some groups2
        else
          if 0 ≤ index ∧ index.toNat < groups2.length then
            some (groups2.set index.toNat (appendUser (groups2.getD index.toNat []) user))
          else none
      else none

/-- Modelled from the spec: the scan that the specification describes,
where "the first group in scan order containing the user wins" — identical
to `scanFrom` except that the scan stops at the first match. -/
def scanFirstFrom (user : GoStr) : Nat → Int → List GoStr → Int
  | _, acc, [] => acc
  | i, acc, g :: gs =>
      if contains user (goSplit g) then (i : Int) else scanFirstFrom user (i + 1) acc gs

/-- Modelled from the spec: `updateGroups` as the specification words it,
with the first (rather than last) group in scan order containing the
claimant taken as `current`.  The body is otherwise identical to
`updateGroups`. -/
def updateGroupsSpecFirst (user : GoStr) (index : Int) (groups : List GoStr) :
    Option (List GoStr) :=
  if groups.length > 4 then none
  else
    let userIndex := scanFirstFrom user 0 (-1) groups
    if userIndex = -1 then
      if 0 ≤ index ∧ index.toNat < groups.length then
        some (groups.set index.toNat (appendUser (groups.getD index.toNat []) user))
      else none
    else
      if groups.length = 4 then
        let c := userIndex.toNat
        let parsed := groups.map goSplit
        let parsed2 := parsed.set c (remove user (parsed.getD c []))
        let groups2 := parsed2.map rejoinOne
        if index = userIndex then some groups2
        else
          if 0 ≤ index ∧ index.toNat < groups2.length then
            some (groups2.set index.toNat (appendUser (groups2.getD index.toNat []) user))
          else none
      else none

/-! ## Basic facts about `goSplit`, `goJoin`, `hasSep` -/

theorem goSplit_sep_cons (r : GoStr) : goSplit (',' :: ' ' :: r) = [] :: goSplit r := by
  simp [goSplit]

theorem goSplit_cons2_neg (c1 c2 : Char) (r : GoStr) (h : ¬(c1 = ',' ∧ c2 = ' '))
    (t : GoStr) (ts : List GoStr) (hcr : goSplit (c2 :: r) = t :: ts) :
    goSplit (c1 :: c2 :: r) = (c1 :: t) :: ts := by
  simp only [goSplit, if_neg h, hcr]

theorem hasSep_cons2 (c1 c2 : Char) (r : GoStr) :
    hasSep (c1 :: c2 :: r) = if c1 = ',' ∧ c2 = ' ' then true else hasSep (c2 :: r) := rfl

theorem goSplit_ne_nil (s : GoStr) : goSplit s ≠ [] := by
  match s with
  | [] => simp [goSplit]
  | [c] => simp [goSplit]
  | c1 :: c2 :: r =>
    simp only [goSplit]
    split
    · simp
    · split <;> simp

theorem goJoin_cons_head (c : Char) (t : GoStr) (ts : List GoStr) :
    goJoin ((c :: t) :: ts) = c :: goJoin (t :: ts) := by
  cases ts <;> simp [goJoin]

/-- Round trip `strings.Join(strings.Split(s, ", "), ", ") = s`: re-serialization is the
exact inverse of parsing, for every string. -/
theorem goJoin_goSplit : ∀ (s : GoStr), goJoin (goSplit s) = s
  | [] => by simp [goSplit, goJoin]
  | [c] => by simp [goSplit, goJoin]
  | c1 :: c2 :: r => by
    by_cases h : c1 = ',' ∧ c2 = ' '
    · obtain ⟨rfl, rfl⟩ := h
      have ih2 := goJoin_goSplit r
      have h3 : goSplit (',' :: ' ' :: r) = [] :: goSplit r := by simp [goSplit]
      rw [h3]
      rcases hr : goSplit r with _ | ⟨t, ts⟩
      · exact absurd hr (goSplit_ne_nil r)
      · rw [hr] at ih2
        rw [show goJoin ([] :: t :: ts) = ',' :: ' ' :: goJoin (t :: ts) from by
          simp [goJoin], ih2]
    · have ih1 := goJoin_goSplit (c2 :: r)
      rcases hcr : goSplit (c2 :: r) with _ | ⟨t, ts⟩
      · exact absurd hcr (goSplit_ne_nil (c2 :: r))
      · have h4 : goSplit (c1 :: c2 :: r) = (c1 :: t) :: ts := by
          simp only [goSplit, if_neg h, hcr]
        rw [hcr] at ih1
        rw [h4, goJoin_cons_head, ih1]

/-- A separator-free string parses as a single token. -/
theorem goSplit_eq_single : ∀ (s : GoStr), hasSep s = false → goSplit s = [s]
  | [], _ => by simp [goSplit]
  | [c], _ => by simp [goSplit]
  | c1 :: c2 :: r, h => by
    rw [hasSep_cons2] at h
    by_cases hcond : c1 = ',' ∧ c2 = ' '
    · rw [if_pos hcond] at h
      exact absurd h (by simp)
    · rw [if_neg hcond] at h
      exact goSplit_cons2_neg c1 c2 r hcond (c2 :: r) []
        (goSplit_eq_single (c2 :: r) h)

/-- Splitting with a separator-free prefix: the prefix becomes the first
token. -/
theorem goSplit_sep_front : ∀ (t : GoStr), hasSep t = false →
    ∀ (r : GoStr), goSplit (t ++ ',' :: ' ' :: r) = t :: goSplit r
  | [], _, r => by
    simp only [List.nil_append]
    exact goSplit_sep_cons r
  | [c], _, r => by
    have hc : ¬(c = ',' ∧ ',' = ' ') := by simp
    simp only [List.cons_append, List.nil_append]
    rw [goSplit_cons2_neg c ',' (' ' :: r) hc [] (goSplit r) (goSplit_sep_cons r)]
  | c1 :: c2 :: t', h, r => by
    rw [hasSep_cons2] at h
    by_cases hcond : c1 = ',' ∧ c2 = ' '
    · rw [if_pos hcond] at h
      exact absurd h (by simp)
    · rw [if_neg hcond] at h
      have ih := goSplit_sep_front (c2 :: t') h r
      simp only [List.cons_append] at ih ⊢
      rw [goSplit_cons2_neg c1 c2 (t' ++ ',' :: ' ' :: r) hcond (c2 :: t')
        (goSplit r) ih]

/-- Splitting with a separator-free suffix: the suffix becomes the last
token. -/
theorem goSplit_sep_suffix (u : GoStr) (hu : hasSep u = false) :
    ∀ (s : GoStr), goSplit (s ++ ',' :: ' ' :: u) = goSplit s ++ [u]
  | [] => by
    simp only [List.nil_append]
    rw [goSplit_sep_cons u, goSplit_eq_single u hu]
    simp [goSplit]
  | [c] => by
    have hc : ¬(c = ',' ∧ ',' = ' ') := by simp
    simp only [List.cons_append, List.nil_append]
    rw [goSplit_cons2_neg c ',' (' ' :: u) hc [] (goSplit u) (goSplit_sep_cons u),
      goSplit_eq_single u hu]
    simp [goSplit]
  | c1 :: c2 :: s' => by
    by_cases hcond : c1 = ',' ∧ c2 = ' '
    · obtain ⟨rfl, rfl⟩ := hcond
      have ih2 := goSplit_sep_suffix u hu s'
      simp only [List.cons_append] at ih2 ⊢
      rw [goSplit_sep_cons (s' ++ ',' :: ' ' :: u), ih2, goSplit_sep_cons s']
      simp
    · have ih := goSplit_sep_suffix u hu (c2 :: s')
      simp only [List.cons_append] at ih ⊢
      rcases hcr : goSplit (c2 :: s') with _ | ⟨t, ts⟩
      · exact absurd hcr (goSplit_ne_nil (c2 :: s'))
      · rw [hcr] at ih
        rw [goSplit_cons2_neg c1 c2 s' hcond t ts hcr]
        rw [goSplit_cons2_neg c1 c2 (s' ++ ',' :: ' ' :: u) hcond t (ts ++ [u])
          (by rw [ih]; simp)]
        simp

/-- The head token of splitting a nonempty string: either the string starts
with the separator (empty first token), or the first token starts with the
string's first character. -/
theorem goSplit_cons_shape (c : Char) (r : GoStr) :
    (∃ ts, goSplit (c :: r) = [] :: ts) ∨
    (∃ t ts, goSplit (c :: r) = (c :: t) :: ts) := by
  match r with
  | [] => exact Or.inr ⟨[], [], by simp [goSplit]⟩
  | c2 :: r2 =>
    by_cases hcond : c = ',' ∧ c2 = ' '
    · exact Or.inl ⟨goSplit r2, by simp [goSplit, hcond]⟩
    · rcases hcr : goSplit (c2 :: r2) with _ | ⟨t, ts⟩
      · exact absurd hcr (goSplit_ne_nil (c2 :: r2))
      · exact Or.inr ⟨t, ts, by simp only [goSplit, if_neg hcond, hcr]⟩

/-- Every token produced by `goSplit` is separator-free. -/
theorem hasSep_goSplit : ∀ (s : GoStr), ∀ t ∈ goSplit s, hasSep t = false
  | [], t, ht => by simp [goSplit] at ht; subst ht; rfl
  | [c], t, ht => by simp [goSplit] at ht; subst ht; rfl
  | c1 :: c2 :: r, t, ht => by
    by_cases hcond : c1 = ',' ∧ c2 = ' '
    · rw [show goSplit (c1 :: c2 :: r) = [] :: goSplit r from by
        simp [goSplit, hcond]] at ht
      rcases List.mem_cons.mp ht with rfl | ht2
      · rfl
      · exact hasSep_goSplit r t ht2
    · rcases hcr : goSplit (c2 :: r) with _ | ⟨t', ts⟩
      · exact absurd hcr (goSplit_ne_nil (c2 :: r))
      · rw [show goSplit (c1 :: c2 :: r) = (c1 :: t') :: ts from by
          simp only [goSplit, if_neg hcond, hcr]] at ht
        rcases List.mem_cons.mp ht with rfl | ht2
        · -- t = c1 :: t', where t' is the head token of goSplit (c2 :: r)
          have ht' : hasSep t' = false :=
            hasSep_goSplit (c2 :: r) t' (by rw [hcr]; exact List.mem_cons_self _ _)
          rcases goSplit_cons_shape c2 r with ⟨ts0, hsh⟩ | ⟨t0, ts0, hsh⟩
          · rw [hcr] at hsh
            obtain ⟨rfl, -⟩ := List.cons.injEq .. ▸ (by exact hsh : t' :: ts = [] :: ts0)
            rfl
          · rw [hcr] at hsh
            have : t' = c2 :: t0 := by
              have := (List.cons.injEq .. ▸ (by exact hsh : t' :: ts = (c2 :: t0) :: ts0)).1
              exact this
            subst this
            rw [hasSep, if_neg hcond]
            exact ht'
        · exact hasSep_goSplit (c2 :: r) t (by rw [hcr]; exact List.mem_cons_of_mem _ ht2)

/-- Parsing inverts serialization on nonempty lists of separator-free
tokens. -/
theorem goSplit_goJoin : ∀ (l : List GoStr), l ≠ [] →
    (∀ t ∈ l, hasSep t = false) → goSplit (goJoin l) = l
  | [], h, _ => absurd rfl h
  | [t], _, h => by
    rw [show goJoin [t] = t from by simp [goJoin]]
    exact goSplit_eq_single t (h t (by simp))
  | t :: t2 :: ts, _, h => by
    have ih := goSplit_goJoin (t2 :: ts) (by simp)
      (fun x hx => h x (List.mem_cons_of_mem _ hx))
    rw [show goJoin (t :: t2 :: ts) = t ++ ',' :: ' ' :: goJoin (t2 :: ts) from by
      simp [goJoin]]
    rw [goSplit_sep_front t (h t (by simp)), ih]

theorem goJoin_eq_nil_iff (l : List GoStr) : goJoin l = [] ↔ l = [] ∨ l = [[]] := by
  match l with
  | [] => simp [goJoin]
  | [t] => simp [goJoin]
  | t :: t2 :: ts =>
    rw [show goJoin (t :: t2 :: ts) = t ++ ',' :: ' ' :: goJoin (t2 :: ts) from by
      simp [goJoin]]
    simp

/-! ## `contains`, `remove`, `appendUser`, `rejoinOne` -/

theorem contains_eq_true_iff (t : GoStr) (l : List GoStr) :
    contains t l = true ↔ t ∈ l := by
  induction l with
  | nil => simp [contains]
  | cons a l ih =>
    rw [contains]
    by_cases h : t = a
    · subst h; simp
    · rw [if_neg h]
      simp [ih, h]

theorem contains_eq_false_iff (t : GoStr) (l : List GoStr) :
    contains t l = false ↔ t ∉ l := by
  rw [← contains_eq_true_iff]
  cases contains t l <;> simp

theorem remove_cons_self (u : GoStr) (l : List GoStr) : remove u (u :: l) = l := by
  simp [remove, firstIdx]

theorem remove_cons_ne (u a : GoStr) (l : List GoStr) (hne : u ≠ a) (hm : u ∈ l) :
    remove u (a :: l) = a :: remove u l := by
  obtain ⟨i, hi⟩ : ∃ i, firstIdx u l = some i := by
    clear hne
    induction l with
    | nil => simp at hm
    | cons b l ih =>
      by_cases hub : u = b
      · exact ⟨0, by simp [firstIdx, hub]⟩
      · obtain ⟨i, hi⟩ := ih (by simpa [hub] using hm)
        exact ⟨i + 1, by simp [firstIdx, hub, hi]⟩
  simp [remove, firstIdx, hne, hi, List.take_succ_cons, List.drop_succ_cons]

theorem remove_append_self (u : GoStr) (l : List GoStr) (h : u ∉ l) :
    remove u (l ++ [u]) = l := by
  induction l with
  | nil => exact remove_cons_self u []
  | cons a l ih =>
    have hne : u ≠ a := fun he => h (he ▸ List.mem_cons_self a l)
    rw [List.cons_append, remove_cons_ne u a (l ++ [u]) hne (by simp),
      ih (fun hm => h (List.mem_cons_of_mem a hm))]

/-- Function `remove` deletes exactly the first occurrence: the prefix before it and
the suffix after it (later duplicates included) are kept in order. -/
theorem remove_first_occ (u : GoStr) (l : List GoStr) (h : u ∈ l) :
    ∃ l1 l2, l = l1 ++ u :: l2 ∧ u ∉ l1 ∧ remove u l = l1 ++ l2 := by
  induction l with
  | nil => simp at h
  | cons a l ih =>
    by_cases hua : u = a
    · subst hua
      exact ⟨[], l, by simp, by simp, by simpa using remove_cons_self u l⟩
    · have hm : u ∈ l := by simpa [hua] using h
      obtain ⟨l1, l2, he, hn, hr⟩ := ih hm
      exact ⟨a :: l1, l2, by simp [he], by simp [hn, fun x => hua x],
        by rw [remove_cons_ne u a l hua hm, hr]; simp⟩

theorem count_remove_self (u : GoStr) (l : List GoStr) (h : u ∈ l) :
    (remove u l).count u + 1 = l.count u := by
  obtain ⟨l1, l2, he, hn, hr⟩ := remove_first_occ u l h
  subst he
  rw [hr]
  simp [List.count_append, List.count_cons_self]
  omega

theorem count_remove_ne (u w : GoStr) (l : List GoStr) (h : u ∈ l) (hw : w ≠ u) :
    (remove u l).count w = l.count w := by
  obtain ⟨l1, l2, he, hn, hr⟩ := remove_first_occ u l h
  subst he
  rw [hr]
  have : (u == w) = false := by
    simp [beq_iff_eq]
    exact fun he => hw he.symm
  simp [List.count_append, List.count_cons, this]

theorem mem_remove_sub (u t : GoStr) (l : List GoStr) (h : u ∈ l)
    (ht : t ∈ remove u l) : t ∈ l := by
  obtain ⟨l1, l2, he, hn, hr⟩ := remove_first_occ u l h
  subst he
  rw [hr] at ht
  rcases List.mem_append.mp ht with h1 | h2
  · exact List.mem_append.mpr (Or.inl h1)
  · exact List.mem_append.mpr (Or.inr (List.mem_cons_of_mem _ h2))

theorem count_nonpos_of_not_mem (w : GoStr) (l : List GoStr) (h : w ∉ l) :
    l.count w = 0 :=
  List.count_eq_zero.mpr h

/-! ## `appendUser` and `rejoinOne` -/

theorem appendUser_sentinel (u : GoStr) : appendUser sentinel u = u := by
  simp [appendUser]

theorem appendUser_ne_sentinel (s u : GoStr) (h : s ≠ sentinel) :
    appendUser s u = s ++ ',' :: ' ' :: u := by
  simp [appendUser, h]

/-- Parsing the result of `appendUser`: for a separator-free user the new
token list is the old one with the user appended (the sentinel list is
replaced outright). -/
theorem goSplit_appendUser (s u : GoStr) (hu : hasSep u = false) :
    goSplit (appendUser s u) = if s = sentinel then [u] else goSplit s ++ [u] := by
  by_cases h : s = sentinel
  · rw [if_pos h, h, appendUser_sentinel, goSplit_eq_single u hu]
  · rw [if_neg h, appendUser_ne_sentinel s u h, goSplit_sep_suffix u hu s]

theorem rejoinOne_ne_nil (l : List GoStr) : rejoinOne l ≠ [] := by
  rw [rejoinOne]
  split
  · simp [sentinel]
  · assumption

theorem rejoinOne_goSplit (s : GoStr) (h : s ≠ []) : rejoinOne (goSplit s) = s := by
  rw [rejoinOne, goJoin_goSplit]
  simp [h]

/-- Parsing a re-serialized token list: either the list collapsed to the
sentinel, or it is recovered exactly. -/
theorem goSplit_rejoinOne (l : List GoStr) (h : ∀ t ∈ l, hasSep t = false) :
    goSplit (rejoinOne l) = if goJoin l = [] then [sentinel] else l := by
  by_cases hj : goJoin l = []
  · rw [if_pos hj, rejoinOne, if_pos hj]
    simp [goSplit, sentinel]
  · rw [if_neg hj, rejoinOne, if_neg hj]
    have hl : l ≠ [] := by
      intro he
      exact hj (by simp [he, goJoin])
    exact goSplit_goJoin l hl h

/-! ## The scan loop -/

/-- Characterization of the `userIndex` scan: either no group's token list
contains the user and the accumulator survives, or the result is the
position of the last matching group. -/
theorem scanFrom_spec (u : GoStr) :
    ∀ (gs : List GoStr) (i : Nat) (acc : Int),
    (scanFrom u i acc gs = acc ∧ ∀ s ∈ gs, contains u (goSplit s) = false) ∨
    (∃ j, j < gs.length ∧ scanFrom u i acc gs = ((i + j : Nat) : Int) ∧
      contains u (goSplit (gs.getD j [])) = true ∧
      ∀ k, j < k → k < gs.length → contains u (goSplit (gs.getD k [])) = false) := by
  intro gs
  induction gs with
  | nil => intro i acc; exact Or.inl ⟨rfl, by simp⟩
  | cons g gs ih =>
    intro i acc
    by_cases hg : contains u (goSplit g) = true
    · rcases ih (i + 1) (i : Int) with ⟨h1, h2⟩ | ⟨j, hj, h1, h2, h3⟩
      · refine Or.inr ⟨0, by simp, ?_, by simpa using hg, ?_⟩
        · rw [scanFrom, if_pos hg]
          simpa using h1
        · intro k hk0 hk
          match k, hk0 with
          | k + 1, _ =>
            simp only [List.getD_cons_succ]
            rw [List.getD_eq_getElem gs [] (by simpa using hk)]
            exact h2 _ (List.getElem_mem _)
      · refine Or.inr ⟨j + 1, by simpa using hj, ?_, by simpa using h2, ?_⟩
        · rw [scanFrom, if_pos hg, h1]
          congr 1
          omega
        · intro k hk0 hk
          match k, hk0 with
          | k + 1, _ =>
            simp only [List.getD_cons_succ]
            exact h3 k (by omega) (by simpa using hk)
    · have hgf : contains u (goSplit g) = false := by
        cases hc : contains u (goSplit g)
        · rfl
        · exact absurd hc hg
      rcases ih (i + 1) acc with ⟨h1, h2⟩ | ⟨j, hj, h1, h2, h3⟩
      · refine Or.inl ⟨?_, ?_⟩
        · rw [scanFrom, if_neg (by simp [hgf])]
          exact h1
        · intro s hs
          rcases List.mem_cons.mp hs with rfl | hs2
          · exact hgf
          · exact h2 s hs2
      · refine Or.inr ⟨j + 1, by simpa using hj, ?_, by simpa using h2, ?_⟩
        · rw [scanFrom, if_neg (by simp [hgf]), h1]
          congr 1
          omega
        · intro k hk0 hk
          match k, hk0 with
          | k + 1, _ =>
            simp only [List.getD_cons_succ]
            exact h3 k (by omega) (by simpa using hk)

/-! ## Occurrence counting -/

/-- Total number of occurrences of the token `u` across a list of parsed
token lists. -/
def tokCount (u : GoStr) (P : List (List GoStr)) : Nat :=
  (P.map (fun l => l.count u)).sum

/-- Total number of occurrences of `u` as a token across the parsed forms
of all group display strings. -/
def occCount (u : GoStr) (groups : List GoStr) : Nat :=
  tokCount u (groups.map goSplit)

theorem tokCount_nil (u : GoStr) : tokCount u [] = 0 := rfl

theorem tokCount_cons (u : GoStr) (l : List GoStr) (P : List (List GoStr)) :
    tokCount u (l :: P) = l.count u + tokCount u P := by
  simp [tokCount]

theorem occCount_cons (u s : GoStr) (gs : List GoStr) :
    occCount u (s :: gs) = (goSplit s).count u + occCount u gs := by
  simp [occCount, tokCount]

theorem tokCount_set (u : GoStr) :
    ∀ (P : List (List GoStr)) (i : Nat) (m : List GoStr), i < P.length →
    tokCount u (P.set i m) + (P.getD i []).count u = tokCount u P + m.count u := by
  intro P
  induction P with
  | nil => intro i m h; simp at h
  | cons l P ih =>
    intro i m h
    match i with
    | 0 => simp [tokCount_cons]; omega
    | i + 1 =>
      have := ih i m (by simpa using h)
      simp only [List.set_cons_succ, tokCount_cons, List.getD_cons_succ]
      omega

theorem getD_map_goSplit (g : List GoStr) (i : Nat) (h : i < g.length) :
    (g.map goSplit).getD i [] = goSplit (g.getD i []) := by
  rw [List.getD_eq_getElem _ _ (by simpa using h), List.getD_eq_getElem _ _ h]
  simp

theorem occCount_set (w : GoStr) (g : List GoStr) (i : Nat) (s : GoStr)
    (h : i < g.length) :
    occCount w (g.set i s) + (goSplit (g.getD i [])).count w =
      occCount w g + (goSplit s).count w := by
  have h2 := tokCount_set w (g.map goSplit) i (goSplit s) (by simpa using h)
  rw [getD_map_goSplit g i h] at h2
  rw [occCount, occCount, List.map_set]
  exact h2

theorem occCount_eq_zero (u : GoStr) (g : List GoStr)
    (h : ∀ s ∈ g, contains u (goSplit s) = false) : occCount u g = 0 := by
  induction g with
  | nil => rfl
  | cons s gs ih =>
    rw [occCount_cons, ih (fun x hx => h x (List.mem_cons_of_mem _ hx))]
    have : u ∉ goSplit s := (contains_eq_false_iff u (goSplit s)).mp (h s (by simp))
    simp [List.count_eq_zero.mpr this]

theorem occCount_getD_le (u : GoStr) (g : List GoStr) (i : Nat) (h : i < g.length) :
    (goSplit (g.getD i [])).count u ≤ occCount u g := by
  rw [List.getD_eq_getElem _ _ h, occCount, tokCount, List.map_map]
  refine List.single_le_sum (fun y _ => Nat.zero_le y) _ ?_
  rw [List.mem_map]
  exact ⟨g[i], List.getElem_mem h, rfl⟩

/-- Re-serializing a list of parsed token lists can only lose occurrences
of a non-sentinel token (an all-empty list collapses to the sentinel). -/
theorem occCount_map_rejoinOne_le (w : GoStr) (hw : w ≠ sentinel)
    (P : List (List GoStr)) (hP : ∀ l ∈ P, ∀ t ∈ l, hasSep t = false) :
    occCount w (P.map rejoinOne) ≤ tokCount w P := by
  rw [occCount, List.map_map, tokCount, List.map_map]
  refine List.sum_le_sum fun l hl => ?_
  have hfree : ∀ t ∈ l, hasSep t = false := hP l hl
  simp only [Function.comp_apply]
  rw [goSplit_rejoinOne l hfree]
  split
  · have : w ∉ [sentinel] := by simp [hw]
    simp [List.count_eq_zero.mpr this]
  · exact Nat.le_refl _

/-- Counting a non-sentinel token after `appendUser`: one more occurrence
of the user, everything else unchanged. -/
theorem count_goSplit_appendUser (s u w : GoStr) (hsep : hasSep u = false)
    (hw : w ≠ sentinel) :
    (goSplit (appendUser s u)).count w =
      (goSplit s).count w + (if w = u then 1 else 0) := by
  have hsent : (goSplit sentinel).count w = 0 := by
    rw [show goSplit sentinel = [sentinel] from by simp [goSplit, sentinel]]
    exact List.count_eq_zero.mpr (by simp [hw])
  have hsingle : ([u] : List GoStr).count w = if w = u then 1 else 0 := by
    by_cases hwu : w = u
    · subst hwu; simp
    · rw [if_neg hwu]
      exact List.count_eq_zero.mpr (by simp [hwu])
  rw [goSplit_appendUser s u hsep]
  by_cases hs : s = sentinel
  · rw [if_pos hs, hs, hsent, hsingle]
    simp
  · rw [if_neg hs, List.count_append, hsingle]

/-! ## The membership invariant is preserved by `updateGroups` -/

/-- Core preservation result: on a four-group state in which every
non-sentinel token occurs at most once overall, `updateGroups` with a
valid index and a separator-free non-sentinel claimant succeeds and
returns a four-group state with the same property. -/
theorem updateGroups_inv (u : GoStr) (idx : Nat) (g : List GoStr)
    (hlen : g.length = 4) (hidx : idx < 4)
    (hu : u ≠ sentinel) (hsep : hasSep u = false)
    (hinv : ∀ w, w ≠ sentinel → occCount w g ≤ 1) :
    ∃ g', updateGroups u (idx : Int) g = some g' ∧ g'.length = 4 ∧
      ∀ w, w ≠ sentinel → occCount w g' ≤ 1 := by
  have hlen4 : ¬ g.length > 4 := by omega
  rcases scanFrom_spec u g 0 (-1) with ⟨hscan, hnone⟩ | ⟨j, hj, hscan, hcont, hlast⟩
  · -- fresh claim: the user is in no group
    refine ⟨g.set idx (appendUser (g.getD idx []) u), ?_, ?_, ?_⟩
    · simp only [updateGroups]
      rw [if_neg hlen4, hscan, if_pos rfl, if_pos ⟨by omega, by omega⟩]
      simp
    · simp [hlen]
    · intro w hw
      have hset := occCount_set w g idx (appendUser (g.getD idx []) u) (by omega)
      rw [count_goSplit_appendUser _ _ _ hsep hw] at hset
      by_cases hwu : w = u
      · subst hwu
        rw [if_pos rfl] at hset
        have hz : occCount w g = 0 := occCount_eq_zero w g hnone
        have hz2 : (goSplit (g.getD idx [])).count w = 0 := by
          refine List.count_eq_zero.mpr ?_
          refine (contains_eq_false_iff w _).mp ?_
          refine hnone _ ?_
          rw [List.getD_eq_getElem _ _ (by omega)]
          exact List.getElem_mem _
        omega
      · have := hinv w hw
        simp only [if_neg hwu] at hset
        omega
  · -- the user was found: j is the last group containing it
    have hj4 : j < 4 := by omega
    have hsj : scanFrom u 0 (-1) g = ((j : Nat) : Int) := by
      rw [hscan]; norm_num
    have hne : ¬ (((j : Nat) : Int) = -1) := by omega
    have hmem : u ∈ goSplit (g.getD j []) := (contains_eq_true_iff _ _).mp hcont
    have hcnt1 : 1 ≤ (goSplit (g.getD j [])).count u := List.count_pos_iff.mpr hmem
    have hocc1 : occCount u g = 1 := by
      have hle := hinv u hu
      have hge := occCount_getD_le u g j (by omega)
      omega
    set pj := goSplit (g.getD j []) with hpj
    set parsed2 := (g.map goSplit).set j (remove u pj) with hparsed2
    have hplen : parsed2.length = 4 := by simp [hparsed2, hlen]
    set groups2 := parsed2.map rejoinOne with hgroups2
    have hg2len : groups2.length = 4 := by simp [hgroups2, hplen]
    have hfree2 : ∀ l ∈ parsed2, ∀ t ∈ l, hasSep t = false := by
      intro l hl
      rcases List.mem_or_eq_of_mem_set hl with hl2 | rfl
      · obtain ⟨s, -, rfl⟩ := List.mem_map.mp hl2
        exact hasSep_goSplit s
      · intro t ht
        exact hasSep_goSplit _ t (mem_remove_sub u t pj hmem ht)
    have htok : ∀ w, w ≠ sentinel →
        tokCount w parsed2 + pj.count w = occCount w g + (remove u pj).count w := by
      intro w hw
      have := tokCount_set w (g.map goSplit) j (remove u pj) (by simp; omega)
      rw [getD_map_goSplit g j (by omega)] at this
      exact this
    have htoku : tokCount u parsed2 = 0 := by
      have h1 := htok u hu
      have h2 := count_remove_self u pj hmem
      omega
    have htokw : ∀ w, w ≠ sentinel → w ≠ u → tokCount w parsed2 ≤ 1 := by
      intro w hw hwu
      have h1 := htok w hw
      have h2 := count_remove_ne u w pj hmem hwu
      have h3 := hinv w hw
      omega
    have hg2occ : ∀ w, w ≠ sentinel → occCount w groups2 ≤ tokCount w parsed2 :=
      fun w hw => occCount_map_rejoinOne_le w hw parsed2 hfree2
    have hg2u : occCount u groups2 = 0 := by
      have := hg2occ u hu
      omega
    by_cases hij : idx = j
    · -- toggle-off: same group, no re-append
      subst hij
      refine ⟨groups2, ?_, hg2len, ?_⟩
      · simp only [updateGroups]
        rw [if_neg hlen4, hsj, if_neg hne, if_pos hlen, if_pos rfl]
        simp only [Int.toNat_natCast]
        rw [getD_map_goSplit g idx (by omega), hgroups2, hparsed2, hpj]
      · intro w hw
        by_cases hwu : w = u
        · subst hwu; omega
        · have := htokw w hw hwu
          have := hg2occ w hw
          omega
    · -- move: remove from group j, append to group idx
      refine ⟨groups2.set idx (appendUser (groups2.getD idx []) u), ?_, ?_, ?_⟩
      · simp only [updateGroups]
        rw [if_neg hlen4, hsj, if_neg hne, if_pos hlen,
          if_neg (show ¬ ((idx : Int) = ((j : Nat) : Int)) from by omega),
          if_pos ⟨by omega, by
            simp only [List.length_map, List.length_set, Int.toNat_natCast, hlen]
            omega⟩]
        simp only [Int.toNat_natCast]
        rw [getD_map_goSplit g j (by omega), hgroups2, hparsed2, hpj]
      · simp [hg2len]
      · intro w hw
        have hset := occCount_set w groups2 idx (appendUser (groups2.getD idx []) u)
          (by omega)
        rw [count_goSplit_appendUser _ _ _ hsep hw] at hset
        by_cases hwu : w = u
        · subst hwu
          rw [if_pos rfl] at hset
          have hz2 : (goSplit (groups2.getD idx [])).count w ≤ occCount w groups2 :=
            occCount_getD_le w groups2 idx (by omega)
          omega
        · have hb1 := hg2occ w hw
          have hb2 := htokw w hw hwu
          simp only [if_neg hwu] at hset
          omega

/-! ## Sequences of claim events -/

/-- Apply a sequence of claim events (claimant mention, 0-based target
index) with `updateGroups`, failing if any application panics. -/
def runEvents : List (GoStr × Nat) → List GoStr → Option (List GoStr)
  | [], g => some g
  | e :: es, g =>
    match updateGroups e.1 (e.2 : Int) g with
    | none => none
    | some g2 => runEvents es g2

/-- The four freshly posted empty-sentinel slot groups. -/
def initGroups : List GoStr := [sentinel, sentinel, sentinel, sentinel]

/-- Number of the four groups whose parsed token list contains `u`. -/
def groupsContainingCount (u : GoStr) (groups : List GoStr) : Nat :=
  groups.countP (fun s => contains u (goSplit s))

theorem groupsContainingCount_le_occCount (u : GoStr) (g : List GoStr) :
    groupsContainingCount u g ≤ occCount u g := by
  induction g with
  | nil => exact Nat.le_refl _
  | cons s gs ih =>
    rw [occCount_cons, groupsContainingCount, List.countP_cons]
    have ih2 : List.countP (fun s => contains u (goSplit s)) gs ≤ occCount u gs := ih
    by_cases hc : contains u (goSplit s) = true
    · have h1 : 1 ≤ (goSplit s).count u :=
        List.count_pos_iff.mpr ((contains_eq_true_iff _ _).mp hc)
      rw [if_pos hc]
      omega
    · rw [if_neg hc]
      omega

/-- Running any sequence of valid, separator-free claim events preserves
the four-group shape and the at-most-one-occurrence invariant. -/
theorem runEvents_inv (es : List (GoStr × Nat))
    (hes : ∀ e ∈ es, e.2 < 4 ∧ e.1 ≠ sentinel ∧ hasSep e.1 = false) :
    ∀ (g : List GoStr), g.length = 4 →
    (∀ w, w ≠ sentinel → occCount w g ≤ 1) →
    ∀ (gfin : List GoStr), runEvents es g = some gfin →
    gfin.length = 4 ∧ ∀ w, w ≠ sentinel → occCount w gfin ≤ 1 := by
  induction es with
  | nil =>
    intro g hlen hinv gfin hrun
    rw [runEvents] at hrun
    cases hrun
    exact ⟨hlen, hinv⟩
  | cons e es ih =>
    intro g hlen hinv gfin hrun
    obtain ⟨hidx, hu, hsep⟩ := hes e (by simp)
    obtain ⟨g', hstep, hlen', hinv'⟩ :=
      updateGroups_inv e.1 e.2 g hlen hidx hu hsep hinv
    rw [runEvents, hstep] at hrun
    exact ih (fun x hx => hes x (List.mem_cons_of_mem _ hx)) g' hlen' hinv' gfin hrun

theorem initGroups_inv (w : GoStr) (hw : w ≠ sentinel) : occCount w initGroups = 0 := by
  refine occCount_eq_zero w initGroups ?_
  intro s hs
  have hssent : s = sentinel := by simpa [initGroups] using hs
  subst hssent
  rw [show goSplit sentinel = [sentinel] from by simp [goSplit, sentinel]]
  rw [contains, if_neg hw]
  rfl

/-- For a four-group state and a valid index, `updateGroups` never hits an
out-of-range access: the embedding returns `some`. -/
theorem updateGroups_isSome (u : GoStr) (idx : Nat) (g : List GoStr)
    (hlen : g.length = 4) (hidx : idx < 4) :
    (updateGroups u (idx : Int) g).isSome = true := by
  simp only [updateGroups]
  rw [if_neg (by omega : ¬ g.length > 4)]
  rcases scanFrom_spec u g 0 (-1) with ⟨hscan, -⟩ | ⟨j, hj, hscan, -, -⟩
  · rw [hscan, if_pos rfl, if_pos ⟨by omega, by omega⟩]
    rfl
  · rw [hscan, if_neg (by omega : ¬ (((0 + j : Nat) : Int) = -1)), if_pos hlen]
    by_cases hij : (idx : Int) = ((0 + j : Nat) : Int)
    · rw [if_pos hij]
      rfl
    · rw [if_neg hij, if_pos ⟨by omega, by
        simp only [List.length_map, List.length_set, Int.toNat_natCast, hlen]
        omega⟩]
      rfl

theorem getD_set_self (l : List GoStr) (i : Nat) (s : GoStr) (h : i < l.length) :
    (l.set i s).getD i [] = s := by
  rw [List.getD_eq_getElem _ _ (by simpa using h)]
  simp [List.getElem_set]

theorem getD_set_ne (l : List GoStr) (i j : Nat) (s : GoStr) (hj : j < l.length)
    (hne : i ≠ j) : (l.set i s).getD j [] = l.getD j [] := by
  rw [List.getD_eq_getElem _ _ (by simpa using hj), List.getD_eq_getElem _ _ hj]
  simp [List.getElem_set, hne]

theorem getD_mem_of_lt (l : List GoStr) (i : Nat) (h : i < l.length) :
    l.getD i [] ∈ l := by
  rw [List.getD_eq_getElem _ _ h]
  exact List.getElem_mem h

theorem contains_goSplit_appendUser (s u : GoStr) (hsep : hasSep u = false) :
    contains u (goSplit (appendUser s u)) = true := by
  rw [contains_eq_true_iff, goSplit_appendUser s u hsep]
  split
  · simp
  · simp

/-! ## Claims -/

/-- Claim C1 (amended). In the group-reconciliation scan locating the
claimant, for every well-formed input (four groups, target index in
[0,3]) in which the claimant's mention occurs in more than one of the
four groups, the group taken as `current` — the value of the code's
`userIndex` scan, which selects the group the claimant is removed
from — is the *last* group in scan order 0→3 containing the claimant
(not the first, as the spec claims), and the call does not crash. -/
theorem claim_C1 (u : GoStr) (idx : Nat) (g : List GoStr)
    (hlen : g.length = 4) (hidx : idx < 4)
    (i j : Nat) (hij : i < j) (hj4 : j < 4)
    (hci : contains u (goSplit (g.getD i [])) = true)
    (_hcj : contains u (goSplit (g.getD j [])) = true) :
    ∃ c : Nat, c < 4 ∧ scanFrom u 0 (-1) g = (c : Int) ∧
      contains u (goSplit (g.getD c [])) = true ∧
      (∀ k, c < k → k < 4 → contains u (goSplit (g.getD k [])) = false) ∧
      (updateGroups u (idx : Int) g).isSome = true := by
  rcases scanFrom_spec u g 0 (-1) with ⟨-, hnone⟩ | ⟨c, hc, hscan, hcont, hlast⟩
  · have := hnone (g.getD i [])
      (by rw [List.getD_eq_getElem _ _ (by omega)]; exact List.getElem_mem _)
    rw [this] at hci
    exact absurd hci (by simp)
  · exact ⟨c, by omega, by rw [hscan]; norm_num, hcont,
      fun k hk1 hk2 => hlast k hk1 (by omega),
      updateGroups_isSome u idx g hlen hidx⟩

/-- Claim C1 witness. A concrete duplicate state: the claimant sits in groups
0 and 1; the scan selects group 1. -/
theorem claim_C1_witness :
    ∃ c : Nat, c < 4 ∧
      scanFrom ['B', 'o', 'b'] 0 (-1)
        [['B', 'o', 'b'], ['B', 'o', 'b'], sentinel, sentinel] = (c : Int) ∧
      contains ['B', 'o', 'b'] (goSplit
        ([['B', 'o', 'b'], ['B', 'o', 'b'], sentinel, sentinel].getD c [])) = true ∧
      (∀ k, c < k → k < 4 → contains ['B', 'o', 'b'] (goSplit
        ([['B', 'o', 'b'], ['B', 'o', 'b'], sentinel, sentinel].getD k [])) = false) ∧
      (updateGroups ['B', 'o', 'b'] ((0 : Nat) : Int)
        [['B', 'o', 'b'], ['B', 'o', 'b'], sentinel, sentinel]).isSome = true :=
  claim_C1 ['B', 'o', 'b'] 0 [['B', 'o', 'b'], ['B', 'o', 'b'], sentinel, sentinel]
    (by decide) (by decide) 0 1 (by decide) (by decide) (by decide) (by decide)

/-- Claim C1 counterexample. With the claimant in groups 0 and 1 and target
index 0, the code takes group 1 (the last containing group) as `current`
and moves the claimant into group 0 without removing the earlier occurrence,
while the spec's first-wins reconciliation (`updateGroupsSpecFirst`)
performs a toggle-off on group 0; the two results differ, so `current` is
not the first containing group. -/
theorem claim_C1_counterexample :
    updateGroups ['B', 'o', 'b'] 0
        [['B', 'o', 'b'], ['B', 'o', 'b'], sentinel, sentinel] =
      some [['B', 'o', 'b', ',', ' ', 'B', 'o', 'b'], sentinel, sentinel, sentinel] ∧
    updateGroupsSpecFirst ['B', 'o', 'b'] 0
        [['B', 'o', 'b'], ['B', 'o', 'b'], sentinel, sentinel] =
      some [sentinel, ['B', 'o', 'b'], sentinel, sentinel] ∧
    updateGroups ['B', 'o', 'b'] 0
        [['B', 'o', 'b'], ['B', 'o', 'b'], sentinel, sentinel] ≠
    updateGroupsSpecFirst ['B', 'o', 'b'] 0
        [['B', 'o', 'b'], ['B', 'o', 'b'], sentinel, sentinel] :=
  ⟨by decide, by decide, by decide⟩

/-- Claim C2 (amended). Starting from four empty-sentinel groups, for every
sequence of claim events — each with a valid target index in [0,3] and a
non-sentinel mention string *that does not contain the group separator
`", "`* — after running the sequence every non-sentinel user mention
appears as a token in at most one of the four groups.  (Every prefix of
such a sequence is again such a sequence, so the bound holds after each
event.)  Without the separator-free amendment the claim is false, see the
counterexample. -/
theorem claim_C2 (es : List (GoStr × Nat))
    (hes : ∀ e ∈ es, e.2 < 4 ∧ e.1 ≠ sentinel ∧ hasSep e.1 = false)
    (gfin : List GoStr) (hrun : runEvents es initGroups = some gfin)
    (u : GoStr) (hu : u ≠ sentinel) :
    groupsContainingCount u gfin ≤ 1 := by
  obtain ⟨-, hinv⟩ := runEvents_inv es hes initGroups (by decide)
    (fun w hw => by rw [initGroups_inv w hw]; exact Nat.zero_le 1) gfin hrun
  exact Nat.le_trans (groupsContainingCount_le_occCount u gfin) (hinv u hu)

/-- Claim C2 witness. Two ordinary claims: Bob takes slot 1, Alice takes
slot 0; Bob's mention ends up in exactly one group. -/
theorem claim_C2_witness :
    groupsContainingCount ['B', 'o', 'b']
      [['A', 'l', 'i', 'c', 'e'], ['B', 'o', 'b'], sentinel, sentinel] ≤ 1 :=
  claim_C2 [(['B', 'o', 'b'], 1), (['A', 'l', 'i', 'c', 'e'], 0)] (by decide)
    [['A', 'l', 'i', 'c', 'e'], ['B', 'o', 'b'], sentinel, sentinel] (by decide)
    ['B', 'o', 'b'] (by decide)

/-- Claim C2 counterexample. The claim as stated (mentions only required to
be non-sentinel) is false: the mention `"a, b"` contains the separator;
after the events `("a, b", 0), ("a, b", 1), ("a", 2)` — all with valid
indices and non-sentinel mentions — the mention `"a"` appears as a token
in two of the four groups. -/
theorem claim_C2_counterexample :
    (∀ e ∈ ([(['a', ',', ' ', 'b'], 0), (['a', ',', ' ', 'b'], 1), (['a'], 2)] :
        List (GoStr × Nat)), e.2 < 4 ∧ e.1 ≠ sentinel) ∧
    runEvents [(['a', ',', ' ', 'b'], 0), (['a', ',', ' ', 'b'], 1), (['a'], 2)]
      initGroups = some [['a', ',', ' ', 'b'], ['b'], ['a'], sentinel] ∧
    ['a'] ≠ sentinel ∧
    groupsContainingCount ['a'] [['a', ',', ' ', 'b'], ['b'], ['a'], sentinel] = 2 :=
  ⟨by decide, by decide, by decide, by decide⟩

/-- Claim C3 (amended). For every well-formed four-group state (each string
is the sentinel or a `", "`-joined list of non-empty tokens — equivalently
non-empty, see `WFspec_iff` below) in which the claimant appears in none
of the groups, *and whose claimant mention does not contain the group
separator `", "`*, applying `updateGroups` twice with the same claimant and
the same valid target index returns the original four strings, with the
claimant absent from all four groups.  Without the separator-free
amendment the claim is false, see the counterexample. -/
theorem claim_C3 (g : List GoStr) (u : GoStr) (idx : Nat)
    (hlen : g.length = 4) (hidx : idx < 4)
    (hwf : ∀ s ∈ g, s ≠ [])
    (habs : ∀ s ∈ g, contains u (goSplit s) = false)
    (hsep : hasSep u = false) :
    ∃ gmid, updateGroups u (idx : Int) g = some gmid ∧
      updateGroups u (idx : Int) gmid = some g ∧
      ∀ s ∈ g, contains u (goSplit s) = false := by
  have hscan1 : scanFrom u 0 (-1) g = -1 := by
    rcases scanFrom_spec u g 0 (-1) with ⟨h, -⟩ | ⟨j, hj, -, hc, -⟩
    · exact h
    · rw [habs _ (getD_mem_of_lt g j hj)] at hc
      exact absurd hc (by simp)
  refine ⟨g.set idx (appendUser (g.getD idx []) u), ?_, ?_, habs⟩
  · simp only [updateGroups]
    rw [if_neg (by omega : ¬ g.length > 4), hscan1, if_pos rfl,
      if_pos ⟨by omega, by omega⟩]
    simp
  · set gmid := g.set idx (appendUser (g.getD idx []) u) with hgmid
    have hmidlen : gmid.length = 4 := by simp [hgmid, hlen]
    have hmid_idx : gmid.getD idx [] = appendUser (g.getD idx []) u :=
      getD_set_self g idx _ (by omega)
    have hmid_ne : ∀ j, j ≠ idx → j < 4 → gmid.getD j [] = g.getD j [] :=
      fun j hne hj => getD_set_ne g idx j _ (by omega) (fun h => hne h.symm)
    have hcont_idx : contains u (goSplit (gmid.getD idx [])) = true := by
      rw [hmid_idx]
      exact contains_goSplit_appendUser _ u hsep
    have hcont_ne : ∀ j, j ≠ idx → j < 4 →
        contains u (goSplit (gmid.getD j [])) = false := by
      intro j hne hj
      rw [hmid_ne j hne hj]
      exact habs _ (getD_mem_of_lt g j (by omega))
    have hscan2 : scanFrom u 0 (-1) gmid = ((idx : Nat) : Int) := by
      rcases scanFrom_spec u gmid 0 (-1) with ⟨-, hnone⟩ | ⟨j, hj, hs, hc, -⟩
      · rw [hnone _ (getD_mem_of_lt gmid idx (by omega))] at hcont_idx
        exact absurd hcont_idx (by simp)
      · have hjidx : j = idx := by
          by_contra hne
          rw [hcont_ne j hne (by omega)] at hc
          exact absurd hc (by simp)
        rw [hs, hjidx]
        norm_num
    simp only [updateGroups]
    rw [if_neg (by omega : ¬ gmid.length > 4), hscan2,
      if_neg (by omega : ¬ (((idx : Nat) : Int) = -1)), if_pos hmidlen, if_pos rfl]
    simp only [Int.toNat_natCast]
    rw [getD_map_goSplit gmid idx (by omega)]
    have hfinal : (((gmid.map goSplit).set idx
        (remove u (goSplit (gmid.getD idx [])))).map rejoinOne) = g := by
      apply List.ext_getElem
      · simp [hmidlen, hlen]
      · intro k hk1 hk2
        rw [List.getElem_map]
        rw [List.getElem_set]
        by_cases hki : idx = k
        · subst hki
          rw [if_pos rfl, hmid_idx, goSplit_appendUser _ u hsep]
          have hgetd : g.getD idx [] = g[idx] :=
            List.getD_eq_getElem g [] (by omega)
          by_cases hs0 : g.getD idx [] = sentinel
          · rw [if_pos hs0, remove_cons_self]
            rw [show rejoinOne [] = sentinel from by simp [rejoinOne, goJoin]]
            rw [← hgetd, hs0]
          · rw [if_neg hs0]
            have habs0 : u ∉ goSplit (g.getD idx []) :=
              (contains_eq_false_iff _ _).mp (habs _ (getD_mem_of_lt g idx (by omega)))
            rw [remove_append_self u _ habs0,
              rejoinOne_goSplit _ (hwf _ (getD_mem_of_lt g idx (by omega))), hgetd]
        · rw [if_neg hki]
          rw [List.getElem_map]
          have : gmid[k] = g[k] := by
            simp only [hgmid]
            simp [List.getElem_set, hki]
          rw [this, rejoinOne_goSplit _ (hwf _ (List.getElem_mem _))]
    rw [hfinal]

/-- Claim C3 witness. A concrete double-toggle on slot 1, with slot 1
initially empty-sentinel and slot 0 occupied by `"x"`. -/
theorem claim_C3_witness :
    ∃ gmid,
      updateGroups ['B', 'o', 'b'] ((1 : Nat) : Int)
        [['x'], sentinel, sentinel, sentinel] = some gmid ∧
      updateGroups ['B', 'o', 'b'] ((1 : Nat) : Int) gmid =
        some [['x'], sentinel, sentinel, sentinel] ∧
      ∀ s ∈ [['x'], sentinel, sentinel, sentinel],
        contains ['B', 'o', 'b'] (goSplit s) = false :=
  claim_C3 [['x'], sentinel, sentinel, sentinel] ['B', 'o', 'b'] 1
    (by decide) (by decide) (by decide) (by decide) (by decide)

/-- Claim C3 counterexample. The claim as stated is false for a claimant
mention containing the separator: claiming slot 0 twice with `"a, b"` from
the well-formed all-sentinel state (in which the claimant appears nowhere)
yields `"a, b, a, b"` in slot 0, not the original state. -/
theorem claim_C3_counterexample :
    (∀ s ∈ [sentinel, sentinel, sentinel, sentinel],
      contains ['a', ',', ' ', 'b'] (goSplit s) = false) ∧
    updateGroups ['a', ',', ' ', 'b'] 0 [sentinel, sentinel, sentinel, sentinel] =
      some [['a', ',', ' ', 'b'], sentinel, sentinel, sentinel] ∧
    updateGroups ['a', ',', ' ', 'b'] 0
        [['a', ',', ' ', 'b'], sentinel, sentinel, sentinel] =
      some [['a', ',', ' ', 'b', ',', ' ', 'a', ',', ' ', 'b'],
        sentinel, sentinel, sentinel] ∧
    [['a', ',', ' ', 'b', ',', ' ', 'a', ',', ' ', 'b'],
        sentinel, sentinel, sentinel] ≠
      ([sentinel, sentinel, sentinel, sentinel] : List GoStr) :=
  ⟨by decide, by decide, by decide, by decide⟩

/-- The well-formedness of a group display string as the spec words it:
the empty-sentinel, or a `", "`-joined list of non-empty tokens. -/
def WFspec (s : GoStr) : Prop :=
  s = sentinel ∨ ∃ l, l ≠ [] ∧ (∀ t ∈ l, t ≠ []) ∧ s = goJoin l

/-- At the string level the spec's well-formedness is exactly
non-emptiness: any non-empty string is the `", "`-join of a single
non-empty token. -/
theorem WFspec_iff (s : GoStr) : WFspec s ↔ s ≠ [] := by
  constructor
  · rintro (rfl | ⟨l, hl, ht, rfl⟩)
    · simp [sentinel]
    · intro hj
      rcases (goJoin_eq_nil_iff l).mp hj with rfl | rfl
      · exact hl rfl
      · exact ht [] (by simp) rfl
  · intro h
    refine Or.inr ⟨[s], by simp, ?_, by simp [goJoin]⟩
    intro t ht
    rw [List.mem_singleton] at ht
    subst ht
    exact h

theorem occCount_two_le (u : GoStr) :
    ∀ (g : List GoStr) (i j : Nat), i < g.length → j < g.length → i ≠ j →
    (goSplit (g.getD i [])).count u + (goSplit (g.getD j [])).count u ≤
      occCount u g := by
  intro g
  induction g with
  | nil => intro i j hi _ _; simp at hi
  | cons s gs ih =>
    intro i j hi hj hne
    match i, j with
    | 0, 0 => exact absurd rfl hne
    | 0, j + 1 =>
      simp only [List.getD_cons_zero, List.getD_cons_succ]
      have := occCount_getD_le u gs j (by simpa using hj)
      rw [occCount_cons]
      omega
    | i + 1, 0 =>
      simp only [List.getD_cons_zero, List.getD_cons_succ]
      have := occCount_getD_le u gs i (by simpa using hi)
      rw [occCount_cons]
      omega
    | i + 1, j + 1 =>
      simp only [List.getD_cons_succ]
      have := ih i j (by simpa using hi) (by simpa using hj) (by omega)
      rw [occCount_cons]
      omega

/-- Under the membership invariant, a claimant found in group `c` is in no
other group. -/
theorem contains_false_of_unique (u : GoStr) (g : List GoStr)
    (hinv : occCount u g ≤ 1) (c : Nat) (hc : c < g.length)
    (hfound : contains u (goSplit (g.getD c [])) = true) :
    ∀ j, j < g.length → j ≠ c → contains u (goSplit (g.getD j [])) = false := by
  intro j hj hne
  have h1 : 1 ≤ (goSplit (g.getD c [])).count u :=
    List.count_pos_iff.mpr ((contains_eq_true_iff _ _).mp hfound)
  cases hcj : contains u (goSplit (g.getD j [])) with
  | false => rfl
  | true =>
    have h2 : 1 ≤ (goSplit (g.getD j [])).count u :=
      List.count_pos_iff.mpr ((contains_eq_true_iff _ _).mp hcj)
    have := occCount_two_le u g c j hc hj (fun h => hne h.symm)
    omega

/-- If the claimant's token occurs in group `c` and in no other group, the
scan returns `c`. -/
theorem scanFrom_eq_of_unique (u : GoStr) (g : List GoStr) (c : Nat)
    (hc : c < g.length)
    (hfound : contains u (goSplit (g.getD c [])) = true)
    (hothers : ∀ j, j < g.length → j ≠ c → contains u (goSplit (g.getD j [])) = false) :
    scanFrom u 0 (-1) g = (c : Int) := by
  rcases scanFrom_spec u g 0 (-1) with ⟨-, hnone⟩ | ⟨j, hj, hs, hcj, -⟩
  · rw [hnone _ (getD_mem_of_lt g c hc)] at hfound
    exact absurd hfound (by simp)
  · have hjc : j = c := by
      by_contra hne
      rw [hothers j hj hne] at hcj
      exact absurd hcj (by simp)
    rw [hs, hjc]
    norm_num

/-- The found path of `updateGroups`, written out: remove the claimant
from the scanned group `c`, re-serialize (empty lists become the
sentinel, the other well-formed groups are returned verbatim), and —
when the target differs from `c` — append the claimant to the target. -/
theorem updateGroups_found_eq (u : GoStr) (g : List GoStr) (idx c : Nat)
    (hlen : g.length = 4) (hidx : idx < 4) (hc : c < 4)
    (hwf : ∀ s ∈ g, s ≠ [])
    (hscanc : scanFrom u 0 (-1) g = ((c : Nat) : Int)) :
    updateGroups u (idx : Int) g = some (
      if idx = c then g.set c (rejoinOne (remove u (goSplit (g.getD c []))))
      else (g.set c (rejoinOne (remove u (goSplit (g.getD c []))))).set idx
        (appendUser (g.getD idx []) u)) := by
  have hG2 : ∀ k, k < g.length →
      (((g.map goSplit).set c (remove u (goSplit (g.getD c [])))).map
        rejoinOne).getD k [] =
      if c = k then rejoinOne (remove u (goSplit (g.getD c []))) else g.getD k [] := by
    intro k hk
    rw [List.getD_eq_getElem _ _ (by simpa using hk), List.getElem_map,
      List.getElem_set]
    by_cases hck : c = k
    · rw [if_pos hck, if_pos hck]
    · rw [if_neg hck, if_neg hck, List.getElem_map,
        rejoinOne_goSplit _ (hwf _ (List.getElem_mem _)),
        List.getD_eq_getElem _ _ hk]
  simp only [updateGroups]
  rw [if_neg (by omega : ¬ g.length > 4), hscanc,
    if_neg (by omega : ¬ (((c : Nat) : Int) = -1)), if_pos hlen]
  simp only [Int.toNat_natCast]
  rw [getD_map_goSplit g c (by omega)]
  by_cases hic : idx = c
  · rw [if_pos (by omega : (idx : Int) = ((c : Nat) : Int)), if_pos hic]
    subst hic
    refine congrArg some (List.ext_getElem (by simp [hlen]) ?_)
    intro k hk1 hk2
    have h3 := hG2 k (by simpa using hk2)
    rw [List.getD_eq_getElem _ _ (by simpa using hk1)] at h3
    rw [h3, List.getElem_set]
    by_cases hck : idx = k
    · rw [if_pos hck, if_pos hck]
    · rw [if_neg hck, if_neg hck, List.getD_eq_getElem _ _ (by simpa using hk2)]
  · rw [if_neg (by omega : ¬ ((idx : Int) = ((c : Nat) : Int))),
      if_pos ⟨by omega, by
        simp only [List.length_map, List.length_set, Int.toNat_natCast, hlen]
        omega⟩, if_neg hic]
    have hgetd := hG2 idx (by omega)
    rw [if_neg (fun h => hic h.symm)] at hgetd
    rw [hgetd]
    refine congrArg some (List.ext_getElem (by simp [hlen]) ?_)
    intro k hk1 hk2
    rw [List.getElem_set, List.getElem_set]
    by_cases hik : idx = k
    · rw [if_pos hik, if_pos hik]
    · rw [if_neg hik, if_neg hik]
      have h3 := hG2 k (by simpa using hk2)
      rw [List.getD_eq_getElem _ _ (by simpa using hk1)] at h3
      rw [h3, List.getElem_set]
      by_cases hck : c = k
      · rw [if_pos hck, if_pos hck]
      · rw [if_neg hck, if_neg hck, List.getD_eq_getElem _ _ (by simpa using hk2)]

/-- After a toggle-off removal under the membership invariant, the
claimant is absent from the re-serialized group. -/
theorem contains_goSplit_rejoinOne_remove (u s : GoStr) (hu : u ≠ sentinel)
    (h : u ∈ goSplit s) (hcnt : (goSplit s).count u ≤ 1) :
    contains u (goSplit (rejoinOne (remove u (goSplit s)))) = false := by
  have h0 : (remove u (goSplit s)).count u = 0 := by
    have := count_remove_self u (goSplit s) h
    omega
  have hnm : u ∉ remove u (goSplit s) := by
    intro hm
    have := List.count_pos_iff.mpr hm
    omega
  have hfree : ∀ t ∈ remove u (goSplit s), hasSep t = false :=
    fun t ht => hasSep_goSplit s t (mem_remove_sub u t (goSplit s) h ht)
  rw [goSplit_rejoinOne _ hfree]
  split
  · rw [contains_eq_false_iff]
    simp [hu]
  · rw [contains_eq_false_iff]
    exact hnm

/-- Claim C4. For every well-formed input — four non-empty group
strings, a non-sentinel claimant mention, the §3 membership invariant (at
most one token occurrence of the claimant overall) — in which the claimant
is found in the group at the target index, `updateGroups` removes the
claimant from that group (toggle-off) and the claimant ends up in none of
the four groups; every returned group string is non-empty (an emptied list
is re-serialized as the sentinel `":"`, never as the empty string).  In
particular `[":", "Bob", ":", ":"]` with claimant `"Bob"` and index 1
yields `[":", ":", ":", ":"]`. -/
theorem claim_C4 :
    (∀ (g : List GoStr) (u : GoStr) (idx : Nat),
      g.length = 4 → idx < 4 → (∀ s ∈ g, s ≠ []) → u ≠ sentinel →
      occCount u g ≤ 1 → contains u (goSplit (g.getD idx [])) = true →
      ∃ r, updateGroups u (idx : Int) g = some r ∧
        r = g.set idx (rejoinOne (remove u (goSplit (g.getD idx [])))) ∧
        (∀ s ∈ r, contains u (goSplit s) = false) ∧
        (∀ s ∈ r, s ≠ [])) ∧
    updateGroups ['B', 'o', 'b'] ((1 : Nat) : Int)
      [sentinel, ['B', 'o', 'b'], sentinel, sentinel] =
      some [sentinel, sentinel, sentinel, sentinel] := by
  constructor
  · intro g u idx hlen hidx hwf hu hinv hfound
    have hothers := contains_false_of_unique u g hinv idx (by omega) hfound
    have hscanc := scanFrom_eq_of_unique u g idx (by omega) hfound hothers
    have heq := updateGroups_found_eq u g idx idx hlen hidx (by omega) hwf hscanc
    rw [if_pos rfl] at heq
    have hcnt : (goSplit (g.getD idx [])).count u ≤ 1 :=
      Nat.le_trans (occCount_getD_le u g idx (by omega)) hinv
    have hmem : u ∈ goSplit (g.getD idx []) := (contains_eq_true_iff _ _).mp hfound
    refine ⟨_, heq, rfl, ?_, ?_⟩
    · intro s hs
      obtain ⟨k, hk, rfl⟩ := List.mem_iff_getElem.mp hs
      rw [List.getElem_set]
      by_cases hik : idx = k
      · rw [if_pos hik]
        exact contains_goSplit_rejoinOne_remove u _ hu hmem hcnt
      · rw [if_neg hik]
        have hk4 : k < g.length := by simpa using hk
        have := hothers k hk4 (fun h => hik h.symm)
        rw [List.getD_eq_getElem _ _ hk4] at this
        exact this
    · intro s hs
      obtain ⟨k, hk, rfl⟩ := List.mem_iff_getElem.mp hs
      rw [List.getElem_set]
      by_cases hik : idx = k
      · rw [if_pos hik]
        exact rejoinOne_ne_nil _
      · rw [if_neg hik]
        exact hwf _ (List.getElem_mem _)
  · decide

/-- Claim C4 witness. The claim's own example: toggling Bob off slot 1. -/
theorem claim_C4_witness :
    ∃ r, updateGroups ['B', 'o', 'b'] ((1 : Nat) : Int)
        [sentinel, ['B', 'o', 'b'], sentinel, sentinel] = some r ∧
      r = [sentinel, ['B', 'o', 'b'], sentinel, sentinel].set 1
        (rejoinOne (remove ['B', 'o', 'b'] (goSplit
          ([sentinel, ['B', 'o', 'b'], sentinel, sentinel].getD 1 [])))) ∧
      (∀ s ∈ r, contains ['B', 'o', 'b'] (goSplit s) = false) ∧
      (∀ s ∈ r, s ≠ []) :=
  claim_C4.1 [sentinel, ['B', 'o', 'b'], sentinel, sentinel] ['B', 'o', 'b'] 1
    (by decide) (by decide) (by decide) (by decide) (by decide) (by decide)

/-- Claim C5. For every well-formed input (as in C4) in which the
claimant is found in exactly one group `c` differing from the target
index, `updateGroups` removes the claimant from group `c` (re-serializing
it, the emptied case becoming the sentinel) and appends the claimant to
the target group.  In particular `["Alice", ":", ":", ":"]` with claimant
`"Alice"` and index 2 yields `[":", ":", "Alice", ":"]`. -/
theorem claim_C5 :
    (∀ (g : List GoStr) (u : GoStr) (idx c : Nat),
      g.length = 4 → idx < 4 → c < 4 → c ≠ idx →
      (∀ s ∈ g, s ≠ []) → u ≠ sentinel → occCount u g ≤ 1 →
      contains u (goSplit (g.getD c [])) = true →
      updateGroups u (idx : Int) g = some
        ((g.set c (rejoinOne (remove u (goSplit (g.getD c []))))).set idx
          (appendUser (g.getD idx []) u))) ∧
    updateGroups ['A', 'l', 'i', 'c', 'e'] ((2 : Nat) : Int)
      [['A', 'l', 'i', 'c', 'e'], sentinel, sentinel, sentinel] =
      some [sentinel, sentinel, ['A', 'l', 'i', 'c', 'e'], sentinel] := by
  constructor
  · intro g u idx c hlen hidx hc hne hwf hu hinv hfound
    have hothers := contains_false_of_unique u g hinv c (by omega) hfound
    have hscanc := scanFrom_eq_of_unique u g c (by omega) hfound hothers
    have heq := updateGroups_found_eq u g idx c hlen hidx hc hwf hscanc
    rw [if_neg (fun h => hne h.symm)] at heq
    exact heq
  · decide

/-- Claim C5 witness. The claim's own example: Alice moves from slot 0 to
slot 2. -/
theorem claim_C5_witness :
    updateGroups ['A', 'l', 'i', 'c', 'e'] ((2 : Nat) : Int)
      [['A', 'l', 'i', 'c', 'e'], sentinel, sentinel, sentinel] = some
      (([['A', 'l', 'i', 'c', 'e'], sentinel, sentinel, sentinel].set 0
        (rejoinOne (remove ['A', 'l', 'i', 'c', 'e'] (goSplit
          ([['A', 'l', 'i', 'c', 'e'], sentinel, sentinel, sentinel].getD 0 []))))).set 2
        (appendUser ([['A', 'l', 'i', 'c', 'e'], sentinel, sentinel, sentinel].getD 2 [])
          ['A', 'l', 'i', 'c', 'e'])) :=
  claim_C5.1 [['A', 'l', 'i', 'c', 'e'], sentinel, sentinel, sentinel]
    ['A', 'l', 'i', 'c', 'e'] 2 0
    (by decide) (by decide) (by decide) (by decide) (by decide) (by decide)
    (by decide) (by decide)

/-- Claim C6. For every input of four groups with a valid target
index in which the claimant appears in none of the groups, `updateGroups`
appends the claimant to the target group and returns, leaving the other
three strings untouched; appending onto the empty-sentinel replaces the
sentinel outright (the group becomes the claimant alone, not
`":, claimant"`), and appending onto a non-empty group joins with `", "`.
In particular `[":", ":", ":", ":"]` with claimant `"Bob"` and index 1
yields `[":", "Bob", ":", ":"]`. -/
theorem claim_C6 :
    (∀ (g : List GoStr) (u : GoStr) (idx : Nat),
      g.length = 4 → idx < 4 → (∀ s ∈ g, s ≠ []) →
      (∀ s ∈ g, contains u (goSplit s) = false) →
      updateGroups u (idx : Int) g =
        some (g.set idx (appendUser (g.getD idx []) u)) ∧
      (g.getD idx [] = sentinel →
        (g.set idx (appendUser (g.getD idx []) u)).getD idx [] = u) ∧
      (g.getD idx [] ≠ sentinel →
        (g.set idx (appendUser (g.getD idx []) u)).getD idx [] =
          g.getD idx [] ++ ',' :: ' ' :: u)) ∧
    updateGroups ['B', 'o', 'b'] ((1 : Nat) : Int) initGroups =
      some [sentinel, ['B', 'o', 'b'], sentinel, sentinel] := by
  constructor
  · intro g u idx hlen hidx hwf habs
    have hscan1 : scanFrom u 0 (-1) g = -1 := by
      rcases scanFrom_spec u g 0 (-1) with ⟨h, -⟩ | ⟨j, hj, -, hc, -⟩
      · exact h
      · rw [habs _ (getD_mem_of_lt g j hj)] at hc
        exact absurd hc (by simp)
    refine ⟨?_, ?_, ?_⟩
    · simp only [updateGroups]
      rw [if_neg (by omega : ¬ g.length > 4), hscan1, if_pos rfl,
        if_pos ⟨by omega, by omega⟩]
      simp
    · intro hs
      rw [getD_set_self g idx _ (by omega), hs, appendUser_sentinel]
    · intro hs
      rw [getD_set_self g idx _ (by omega), appendUser_ne_sentinel _ _ hs]
  · decide

/-- Claim C6 witness. Appending Bob onto the empty-sentinel slot 1 of a
state whose slot 0 holds `"x"`. -/
theorem claim_C6_witness :
    updateGroups ['B', 'o', 'b'] ((1 : Nat) : Int)
        [['x'], sentinel, sentinel, sentinel] =
      some ([['x'], sentinel, sentinel, sentinel].set 1
        (appendUser ([['x'], sentinel, sentinel, sentinel].getD 1 [])
          ['B', 'o', 'b'])) ∧
    ([['x'], sentinel, sentinel, sentinel].getD 1 [] = sentinel →
      (([['x'], sentinel, sentinel, sentinel]).set 1
        (appendUser ([['x'], sentinel, sentinel, sentinel].getD 1 [])
          ['B', 'o', 'b'])).getD 1 [] = ['B', 'o', 'b']) ∧
    ([['x'], sentinel, sentinel, sentinel].getD 1 [] ≠ sentinel →
      (([['x'], sentinel, sentinel, sentinel]).set 1
        (appendUser ([['x'], sentinel, sentinel, sentinel].getD 1 [])
          ['B', 'o', 'b'])).getD 1 [] =
        [['x'], sentinel, sentinel, sentinel].getD 1 [] ++
          ',' :: ' ' :: ['B', 'o', 'b']) :=
  claim_C6.1 [['x'], sentinel, sentinel, sentinel] ['B', 'o', 'b'] 1
    (by decide) (by decide) (by decide) (by decide)

/-- Claim C7. `remove` deletes exactly the first occurrence of
the claimant's token from the chosen group, keeping every other member —
including any later duplicate occurrences of the claimant — in original
insertion order.  In particular `["Alice, Bob", ":", ":", ":"]` with
claimant `"Alice"` and index 1 yields `["Bob", "Alice", ":", ":"]`. -/
theorem claim_C7 :
    (∀ (u : GoStr) (l : List GoStr), u ∈ l →
      ∃ l1 l2, l = l1 ++ u :: l2 ∧ u ∉ l1 ∧ remove u l = l1 ++ l2) ∧
    updateGroups ['A', 'l', 'i', 'c', 'e'] ((1 : Nat) : Int)
      [['A', 'l', 'i', 'c', 'e', ',', ' ', 'B', 'o', 'b'],
        sentinel, sentinel, sentinel] =
      some [['B', 'o', 'b'], ['A', 'l', 'i', 'c', 'e'], sentinel, sentinel] :=
  ⟨fun u l h => remove_first_occ u l h, by decide⟩

/-- Claim C7 witness. First-occurrence removal with a later duplicate:
removing `"y"` from `["x", "y", "y"]` keeps the second `"y"`. -/
theorem claim_C7_witness :
    ∃ l1 l2, ([['x'], ['y'], ['y']] : List GoStr) = l1 ++ ['y'] :: l2 ∧
      ['y'] ∉ l1 ∧ remove ['y'] [['x'], ['y'], ['y']] = l1 ++ l2 :=
  claim_C7.1 ['y'] [['x'], ['y'], ['y']] (by decide)

/-- Claim C10 (amended). On the fresh-claim path (claimant in none of the
four groups) `updateGroups` returns the three non-target group strings
character-for-character unchanged, with no re-parsing; and although the
toggle-off and move paths re-split and re-join all four strings, joining
with `", "` exactly inverts splitting, so re-serialization itself rewrites
nothing: a non-canonical string (e.g. different separator spacing) is
passed through verbatim there as well — contrary to the claim's
parenthetical — and only claimant removal and the empty-to-sentinel reset
change a group's text. -/
theorem claim_C10 :
    (∀ (g : List GoStr) (u : GoStr) (idx : Nat),
      g.length = 4 → idx < 4 →
      (∀ s ∈ g, contains u (goSplit s) = false) →
      updateGroups u (idx : Int) g =
        some (g.set idx (appendUser (g.getD idx []) u))) ∧
    (∀ s : GoStr, goJoin (goSplit s) = s) := by
  constructor
  · intro g u idx hlen hidx habs
    have hscan1 : scanFrom u 0 (-1) g = -1 := by
      rcases scanFrom_spec u g 0 (-1) with ⟨h, -⟩ | ⟨j, hj, -, hc, -⟩
      · exact h
      · rw [habs _ (getD_mem_of_lt g j hj)] at hc
        exact absurd hc (by simp)
    simp only [updateGroups]
    rw [if_neg (by omega : ¬ g.length > 4), hscan1, if_pos rfl,
      if_pos ⟨by omega, by omega⟩]
    simp
  · exact goJoin_goSplit

/-- Claim C10 witness. A fresh claim into slot 3 leaves slots 0-2 verbatim. -/
theorem claim_C10_witness :
    updateGroups ['z'] ((3 : Nat) : Int) [['a'], sentinel, sentinel, sentinel] =
      some ([['a'], sentinel, sentinel, sentinel].set 3
        (appendUser ([['a'], sentinel, sentinel, sentinel].getD 3 []) ['z'])) :=
  claim_C10.1 [['a'], sentinel, sentinel, sentinel] ['z'] 3
    (by decide) (by decide) (by decide)

/-- Claim C10 counterexample. A toggle-off (the claimant is found at the
target index, so all four strings are re-split and re-joined) on a state
whose group 0 is the non-canonical `"x,y"` (comma without space): the
claim says such a string is rewritten by the re-serialization, but the
output returns it character-for-character unchanged. -/
theorem claim_C10_counterexample :
    contains ['B', 'o', 'b'] (goSplit
      ([['x', ',', 'y'], ['B', 'o', 'b'], sentinel, sentinel].getD 1 [])) = true ∧
    updateGroups ['B', 'o', 'b'] ((1 : Nat) : Int)
        [['x', ',', 'y'], ['B', 'o', 'b'], sentinel, sentinel] =
      some [['x', ',', 'y'], sentinel, sentinel, sentinel] :=
  ⟨by decide, by decide⟩

/-! ## The interaction dispatch (ModalHandler / SlashHandler) -/

/-- A digit character's numeric value, if any. -/
def digitVal : Char → Option Nat :=
  fun c => if '0' ≤ c ∧ c ≤ '9' then some (c.toNat - '0'.toNat) else none

/-- Accumulate a decimal digit string. -/
def parseDigits : Nat → GoStr → Option Nat
  | acc, [] => some acc
  | acc, c :: rest =>
    match digitVal c with
    | some d => parseDigits (acc * 10 + d) rest
    | none => none

/-- Models `strconv.Atoi` as used at the call site
`optionSelected, _ := strconv.Atoi(...)`: the caller discards the error,
and Go's `Atoi` returns the value `0` alongside a syntax error, so
non-numeric input is modelled as `0` (small inputs; overflow ignored). -/
def goAtoi : GoStr → Int
  | [] => 0
  | '-' :: rest =>
    match rest, parseDigits 0 rest with
    | _ :: _, some n => -(n : Int)
    | _, _ => 0
  | '+' :: rest =>
    match rest, parseDigits 0 rest with
    | _ :: _, some n => (n : Int)
    | _, _ => 0
  | s =>
    match parseDigits 0 s with
    | some n => (n : Int)
    | none => 0

/-- A message block, as far as the handlers read or write it: a section
block carrying an optional text and a list of field texts, an action
block carrying its buttons' values, or anything else. -/
inductive BlockM
  | sectionB (text : Option GoStr) (fields : List GoStr)
  | actionsB (values : List GoStr)
  | otherBlock
deriving DecidableEq

/-- The outbound platform calls a handler can make. -/
inductive SlackAction
  | postMsg (channel : GoStr) (blocks : List BlockM)
  | updateMsg (channel ts : GoStr) (blocks : List BlockM)
  | openView (triggerID : GoStr)
deriving DecidableEq

/-- The observable outcome of one handler invocation: the platform calls
performed, and the HTTP status explicitly written (`none` = no
`WriteHeader` call, which the transport reports as 200 OK). -/
structure Outcome where
  actions : List SlackAction
  status : Option Nat
deriving DecidableEq

/-- The discriminant of an interaction payload (`i.Type`): the two kinds
the dispatcher handles, or any other kind. -/
inductive IKind
  | blockActions
  | viewSubmission
  | otherKind (s : GoStr)
deriving DecidableEq

/-- A signature-verified, successfully unmarshalled interaction payload,
reduced to the fields the dispatcher reads.  The view-state map lookups
(`i.View.State.Values[...][...].Value`, missing keys giving Go zero
values) are absorbed into the five extracted strings. -/
structure CallbackM where
  ctype : IKind
  messageTs : GoStr
  userID : GoStr
  channelID : GoStr
  blockActionValues : List GoStr
  messageBlocks : List BlockM
  vQuestion : GoStr
  vChoice1 : GoStr
  vChoice2 : GoStr
  vChoice3 : GoStr
  vChoice4 : GoStr
  vSelectedConv : GoStr
deriving DecidableEq

/-- Mention string `"<@" + userID + ">"`. -/
def mention (userID : GoStr) : GoStr := '<' :: '@' :: (userID ++ ['>'])

/-- Translation of the dispatch switch of `ModalHandler` (after signature
verification and JSON unmarshalling, which are external collaborators).
`apiErr` abstracts the remote platform's response to an outbound call;
`none` models a Go panic (indexing `BlockActions[0]` on an empty list,
indexing `BlockSet[2]` out of range, a failed `*SectionBlock` type
assertion, or indexing `Fields[1..7]` out of range).  The two write-backs
into `Fields` at positions {1,3,5,7} are order-independent, so the Go
map-iteration order of the write loop is immaterial. -/
def modalDispatch (apiErr : SlackAction → Bool) (cb : CallbackM) : Option Outcome :=
  match cb.ctype with
  | IKind.blockActions =>
    match cb.blockActionValues with
    | [] => none
    | v :: _ =>
      match cb.messageBlocks[2]? with
      | some (BlockM.sectionB txt fields) =>
        if 8 ≤ fields.length then
          match updateGroups (mention cb.userID) (goAtoi v - 1)
              [fields.getD 1 [], fields.getD 3 [], fields.getD 5 [],
                fields.getD 7 []] with
          | none => none
          | some gt =>
            let fields2 := (((fields.set 1 (gt.getD 0 [])).set 3
              (gt.getD 1 [])).set 5 (gt.getD 2 [])).set 7 (gt.getD 3 [])
            let blocks2 := cb.messageBlocks.set 2 (BlockM.sectionB txt fields2)
            let act := SlackAction.updateMsg cb.channelID cb.messageTs blocks2
            some ⟨[act], if apiErr act then some 401 else none⟩
        else none
      | _ => none
  | IKind.viewSubmission =>
    let fields := [cb.vChoice1, sentinel, cb.vChoice2, sentinel, cb.vChoice3,
      sentinel, cb.vChoice4, sentinel]
    let blocks := [BlockM.sectionB (some cb.vQuestion) [],
      BlockM.actionsB [['1'], ['2'], ['3'], ['4']],
      BlockM.sectionB none fields]
    let channel := if cb.vSelectedConv = [] then cb.userID else cb.vSelectedConv
    let act := SlackAction.postMsg channel blocks
    some ⟨[act], if apiErr act then some 401 else none⟩
  | IKind.otherKind _ => some ⟨[], none⟩

/-- A signature-verified, successfully parsed slash command. -/
structure SlashM where
  command : GoStr
  triggerID : GoStr
deriving DecidableEq

/-- Translation of the command switch of `SlashHandler`: `/poll` opens the
modal view (an `OpenView` failure is only logged, so no status is
written); any other command writes HTTP 500 and performs no call. -/
def slashDispatch (_apiErr : SlackAction → Bool) (cmd : SlashM) : Outcome :=
  if cmd.command = ['/', 'p', 'o', 'l', 'l'] then
    ⟨[SlackAction.openView cmd.triggerID], none⟩
  else
    ⟨[], some 500⟩

/-- Claim C8. The two unknown-input policies are distinct: a
verified interaction payload of any kind other than block-actions or
view-submission makes the interaction handler perform no post and no
update and return success (no status written, hence 200); a verified
slash command other than `/poll` makes the slash handler write the
error status 500 and open no view. -/
theorem claim_C8 :
    (∀ (apiErr : SlackAction → Bool) (cb : CallbackM) (s : GoStr),
      cb.ctype = IKind.otherKind s →
      modalDispatch apiErr cb = some ⟨[], none⟩) ∧
    (∀ (apiErr : SlackAction → Bool) (cmd : SlashM),
      cmd.command ≠ ['/', 'p', 'o', 'l', 'l'] →
      slashDispatch apiErr cmd = ⟨[], some 500⟩) := by
  constructor
  · intro apiErr cb s h
    simp [modalDispatch, h]
  · intro apiErr cmd h
    simp [slashDispatch, h]

/-- Claim C8 witness. A concrete unknown interaction kind and a concrete
unknown slash command. -/
theorem claim_C8_witness :
    modalDispatch (fun _ => false)
      ⟨IKind.otherKind ['x'], [], [], [], [], [], [], [], [], [], [], []⟩ =
      some ⟨[], none⟩ ∧
    slashDispatch (fun _ => false) ⟨['/', 'f', 'o', 'o'], []⟩ = ⟨[], some 500⟩ :=
  ⟨claim_C8.1 (fun _ => false) _ ['x'] rfl,
    claim_C8.2 (fun _ => false) _ (by decide)⟩

/-- Claim C9. For a block-action button value among the digit
strings "1".."4", the numeric parse minus one is an index in [0,3], and
`updateGroups` on four group strings with that index returns `some`: the
out-of-bounds error branches of the embedding (the Go panics) are
unreachable under this precondition. -/
theorem claim_C9 (v : GoStr)
    (hv : v = ['1'] ∨ v = ['2'] ∨ v = ['3'] ∨ v = ['4'])
    (u : GoStr) (g : List GoStr) (hlen : g.length = 4) :
    0 ≤ goAtoi v - 1 ∧ goAtoi v - 1 < 4 ∧
      (updateGroups u (goAtoi v - 1) g).isSome = true := by
  have hval : goAtoi v = 1 ∨ goAtoi v = 2 ∨ goAtoi v = 3 ∨ goAtoi v = 4 := by
    rcases hv with rfl | rfl | rfl | rfl
    · exact Or.inl (by decide)
    · exact Or.inr (Or.inl (by decide))
    · exact Or.inr (Or.inr (Or.inl (by decide)))
    · exact Or.inr (Or.inr (Or.inr (by decide)))
  rcases hval with h | h | h | h
  · rw [h, show (1 : Int) - 1 = ((0 : Nat) : Int) from by norm_num]
    exact ⟨by omega, by omega, updateGroups_isSome u 0 g hlen (by omega)⟩
  · rw [h, show (2 : Int) - 1 = ((1 : Nat) : Int) from by norm_num]
    exact ⟨by omega, by omega, updateGroups_isSome u 1 g hlen (by omega)⟩
  · rw [h, show (3 : Int) - 1 = ((2 : Nat) : Int) from by norm_num]
    exact ⟨by omega, by omega, updateGroups_isSome u 2 g hlen (by omega)⟩
  · rw [h, show (4 : Int) - 1 = ((3 : Nat) : Int) from by norm_num]
    exact ⟨by omega, by omega, updateGroups_isSome u 3 g hlen (by omega)⟩

/-- Claim C9 witness. Button value `"2"` on the initial state. -/
theorem claim_C9_witness :
    0 ≤ goAtoi ['2'] - 1 ∧ goAtoi ['2'] - 1 < 4 ∧
      (updateGroups ['B', 'o', 'b'] (goAtoi ['2'] - 1) initGroups).isSome = true :=
  claim_C9 ['2'] (by decide) ['B', 'o', 'b'] initGroups (by decide)
